import Mathlib

/-!
Verification of the gus-epaxos benchmark client and its replicated-state model.

The development shallowly embeds the Go sources:
- the `state` package (operations, commands, the key-value store, the
  conflict relation, command execution), and
- the benchmark client (`client.go`): the issuer/receiver request pipeline,
  the admission semaphore, the outstanding-request table, key selection,
  Poisson-vs-closed-loop pacing, and the ramp-window statistics filter.

Machine integers are embedded as `Int` with explicit wrap-around at 2^32
where the Go code computes in `int32`.  Go maps become `Key → Option Value`
or `Finset` of identifiers; concurrent components become explicit labelled
transition systems.
-/

namespace GusEpaxos

/-! ## The `state` package -/

/-- `type Operation uint8` with constants NONE, PUT, GET, DELETE, RLOCK, RMW. -/
inductive Operation where
  | NONE
  | PUT
  | GET
  | DELETE
  | RLOCK
  | RMW
deriving DecidableEq, Repr

/-- `type Value int64`. -/
abbrev Value := Int

/-- `const NIL Value = 0`. -/
def NIL : Value := 0

/-- `type Key int64`. -/
abbrev Key := Int

/-- `type Command struct { Op Operation; K Key; V Value }`. -/
structure Command where
  Op : Operation
  K : Key
  V : Value
deriving DecidableEq, Repr

/-- The `Store map[Key]Value` field of `type State struct`; `none` encodes
absence of the key from the Go map.  (The struct's mutex field carries no
data and every `Lock` call on it in `Execute` is commented out in the
source, so the store alone is the state.) -/
def Store := Key → Option Value

/-- `make(map[Key]Value)`: the empty store. -/
def emptyStore : Store := fun _ => none

/-- Writing one key of a Go map: `st.Store[k] = v`. -/
def storeSet (st : Store) (k : Key) (v : Value) : Store :=
  fun x => if x = k then some v else st x

/-- `func Conflict(gamma *Command, delta *Command) bool`. -/
def Conflict (gamma delta : Command) : Bool :=
  if gamma.K = delta.K then
    if gamma.Op = .PUT ∨ gamma.Op = .RMW ∨ delta.Op = .PUT ∨ delta.Op = .RMW then
      true
    else false
  else false

/-- `func (c *Command) Execute(st *State) Value`, returning the reply value
together with the store after the mutation (the Go method mutates
`st.Store` in place).  `case PUT`: overwrite and return `c.V`;
`case GET`: return the present value, else fall through to `return NIL`;
`case RMW`: increment the present value (reading the default 0 when the
key is absent), store it back and return it; all other operations fall
through to `return NIL` without touching the store. -/
def Command.Execute (c : Command) (st : Store) : Value × Store :=
  match c.Op with
  | .PUT => (c.V, storeSet st c.K c.V)
  | .GET =>
    match st c.K with
    | some val => (val, st)
    | none => (NIL, st)
  | .RMW =>
    match st c.K with
    | some val => (val + 1, storeSet st c.K (val + 1))
    | none => (0 + 1, storeSet st c.K (0 + 1))
  | _ => (NIL, st)

/-- Running a list of commands through `Execute` in order, pairing each
command with the value its execution returned. -/
def execResults (cs : List Command) (st : Store) : List (Command × Value) :=
  match cs with
  | [] => []
  | c :: rest => (c, (c.Execute st).1) :: execResults rest (c.Execute st).2

/-- The returned values of the commands targeting key `K`, in execution
order. -/
def outputsOn (K : Key) (cs : List Command) (st : Store) : List Value :=
  ((execResults cs st).filter (fun p => p.1.K = K)).map (fun p => p.2)

/-- How many commands of the list target key `K`. -/
def countOn (K : Key) (cs : List Command) : Nat :=
  (cs.filter (fun c => c.K = K)).length

/-- `Execute` leaves every key other than the command's own untouched. -/
theorem execute_preserves_other (c : Command) (st : Store) (k : Key)
    (hne : k ≠ c.K) : (c.Execute st).2 k = st k := by
  unfold Command.Execute
  cases c.Op
  case PUT => simp [storeSet, hne]
  case GET => cases st c.K <;> rfl
  case RMW => cases st c.K <;> simp [storeSet, hne]
  all_goals rfl

/-- An RMW command returns one more than the stored value (0 when absent)
and stores the returned value back at its key. -/
theorem execute_rmw (c : Command) (st : Store) (hop : c.Op = .RMW) :
    (c.Execute st).1 = (st c.K).getD 0 + 1 ∧
    (c.Execute st).2 = storeSet st c.K ((st c.K).getD 0 + 1) := by
  unfold Command.Execute
  rw [hop]
  cases st c.K <;> simp

/-- Generalised RMW run: if every command of the list that targets `K` is
an RMW, the values returned on `K` count up from one past the value
currently stored at `K` (0 when `K` is absent). -/
theorem outputsOn_rmw (K : Key) :
    ∀ (cs : List Command) (st : Store),
      (∀ c ∈ cs, c.K = K → c.Op = .RMW) →
      outputsOn K cs st =
        (List.range (countOn K cs)).map
          (fun i : Nat => (st K).getD 0 + 1 + (i : Value)) := by
  intro cs
  induction cs with
  | nil => intro st _; simp [outputsOn, execResults, countOn]
  | cons c rest ih =>
    intro st hall
    have hrest : ∀ c' ∈ rest, c'.K = K → c'.Op = .RMW :=
      fun c' hc' => hall c' (List.mem_cons_of_mem c hc')
    by_cases hk : c.K = K
    · have hop : c.Op = .RMW := hall c (List.mem_cons_self c rest) hk
      obtain ⟨hv, hst⟩ := execute_rmw c st hop
      have hstK : ((c.Execute st).2 K).getD 0 = (st K).getD 0 + 1 := by
        rw [hst, hk, storeSet]; simp
      have hout : outputsOn K (c :: rest) st =
          (c.Execute st).1 :: outputsOn K rest (c.Execute st).2 := by
        simp [outputsOn, execResults, hk]
      have hcount : countOn K (c :: rest) = countOn K rest + 1 := by
        simp [countOn, hk]
      rw [hout, ih (c.Execute st).2 hrest, hstK, hcount, hv, hk,
        List.range_succ_eq_map, List.map_cons, List.map_map]
      refine List.cons_eq_cons.mpr ⟨by simp, ?_⟩
      · apply List.map_congr_left
        intro i _
        simp only [Function.comp_apply]
        push_cast
        ring
    · have hout : outputsOn K (c :: rest) st =
          outputsOn K rest (c.Execute st).2 := by
        simp [outputsOn, execResults, hk]
      have hstK : (c.Execute st).2 K = st K :=
        execute_preserves_other c st K (fun h => hk h.symm)
      have hcount : countOn K (c :: rest) = countOn K rest := by
        simp [countOn, hk]
      rw [hout, ih (c.Execute st).2 hrest, hstK, hcount]

/-! ## The benchmark client (`client.go`) -/

/-- `type response struct`: one completed-operation record.  The float64
latency fields carry no claim-relevant arithmetic and are embedded as
integers. -/
structure Response where
  receivedAt : Int
  rtt : Int
  commitLatency : Int
  isRead : Bool
  replicaID : Nat
deriving DecidableEq, Repr

/-- The measurement-window test of `printerMultipeFile`:
`*rampUp < int(currentRuntime.Seconds()) && int(currentRuntime.Seconds()) < *timeout-*rampDown`,
with `elapsedSec` the tick's whole elapsed seconds since experiment start
(`currentRuntime` is computed once per tick, before the drain loop). -/
def inMeasureWindow (rampUp rampDown timeout elapsedSec : Int) : Bool :=
  decide (rampUp < elapsedSec) && decide (elapsedSec < timeout - rampDown)

/-- One tick of `printerMultipeFile`'s drain loop: every drained record is
consumed from the channel; a record's trace line is written only when the
tick is inside the measurement window, and the per-tick summary line is
written under the same test.  Returns (trace lines written, summary line
written?, records consumed). -/
def printerTick (rampUp rampDown timeout elapsedSec : Int)
    (drained : List Response) : List Response × Bool × Nat :=
  (drained.filter (fun _ => inMeasureWindow rampUp rampDown timeout elapsedSec),
   inMeasureWindow rampUp rampDown timeout elapsedSec,
   drained.length)

/-- The two shapes of the issuer's admission gate: the blocking
`orInfo.sema.Acquire(context.Background(), 1)` call, or the Poisson
`TryAcquire`/sleep retry loop. -/
inductive PacingMode where
  | closedLoop
  | poissonLoop
deriving DecidableEq, Repr

/-- The branch `if *poissonAvg == -1 { ... Acquire ... } else { ... }`
selecting the issuer's admission gate in `simulatedClientWriter` and
`simulatedGryffClientWriter`. -/
def pacingMode (poissonAvg : Int) : PacingMode :=
  if poissonAvg = -1 then .closedLoop else .poissonLoop

/-- Two's-complement wrap of an unbounded integer into the int32 range. -/
def int32wrap (x : Int) : Int := (x + 2 ^ 31) % 2 ^ 32 - 2 ^ 31

/-- The fixed hot key `args.Command.K = 42`. -/
def hotKey : Key := 42

/-- The cold-key computation
`args.Command.K = state.Key(int32(*startRange) + 43 + id)` of the raw-wire
issuer, in wrapping int32 arithmetic. -/
def coldKey (startRange id : Int) : Key :=
  int32wrap (int32wrap startRange + 43 + id)

/-- Hot-key-mode key selection: `r := conflictRand.Intn(100);
if r < *conflicts { K = 42 } else { K = coldKey }`. -/
def chooseKey (conflicts startRange r id : Int) : Key :=
  if r < conflicts then hotKey else coldKey startRange id

/-- The statements of the send section of one `simulatedClientWriter`
iteration (client.go lines 374-385), in program order. -/
inductive WriterAction where
  | recordBefore
  | writeOpcode
  | marshalArgs
  | flushFrame
  | lockTable
  | writeIsRead
  | writeStartTime
  | unlockTable
deriving DecidableEq, Repr

/-- Program order of the send section: `before := time.Now()`;
`writer.WriteByte(genericsmrproto.PROPOSE)`; `args.Marshal(writer)`;
`writer.Flush()`; `orInfo.Lock()`; `orInfo.isRead[id] = true` (GET only);
`orInfo.startTimes[id] = before`; `orInfo.Unlock()`. -/
def writerSendSection : List WriterAction :=
  [.recordBefore, .writeOpcode, .marshalArgs, .flushFrame,
   .lockTable, .writeIsRead, .writeStartTime, .unlockTable]

/-- The receiver's handling of one reply
(`delete(orInfo.startTimes, reply.CommandId)`): the entry with the reply's
echoed id is removed from `startTimes`.  Request ids are modelled as
naturals; the table is its key set. -/
def processReply (startTimes : Finset Nat) (commandId : Nat) : Finset Nat :=
  startTimes.erase commandId

/-- Processing a sequence of replies in their arrival order. -/
def processReplies (replies : List Nat) (startTimes : Finset Nat) : Finset Nat :=
  replies.foldl processReply startTimes

/-- The key set of `startTimes` after the issuer has sent requests
0 … N-1 (`for id := int32(0); ; id++`). -/
def issuedTable (N : Nat) : Finset Nat := Finset.range N

/-- Folding `processReply` removes precisely the processed ids. -/
theorem processReplies_eq_sdiff :
    ∀ (replies : List Nat) (table : Finset Nat),
      processReplies replies table = table \ replies.toFinset := by
  intro replies
  induction replies with
  | nil => intro table; simp [processReplies]
  | cons r rs ih =>
    intro table
    have hstep : processReplies (r :: rs) table =
        processReplies rs (table.erase r) := rfl
    rw [hstep, ih]
    ext x
    simp only [Finset.mem_sdiff, Finset.mem_erase, List.toFinset_cons,
      Finset.mem_insert, List.mem_toFinset]
    tauto

/-- The interleaved issuer/receiver pipeline of one raw-wire client:
`avail` is the weighted semaphore's free capacity, `issued` the ids the
issuer has acquired a unit for and sent, `completed` the ids whose reply
the receiver has processed, and `table` the key set of `startTimes`. -/
structure ClientState where
  avail : Nat
  issued : Finset Nat
  completed : Finset Nat
  table : Finset Nat

/-- A fresh `outstandingRequestInfo`:
`semaphore.NewWeighted(*outstandingReqs)` with all `B` units free and
empty maps. -/
def initClient (B : Nat) : ClientState := ⟨B, ∅, ∅, ∅⟩

/-- Atomic events of the issuer and receiver loops.  `issue` is the
issuer's blocking `sema.Acquire` followed by the send of a fresh id;
`tableWrite` is its later `orInfo.startTimes[id] = before` (in the source
this happens after the flush); `complete` is the receiver's handling of
one reply: `sema.Release(1)` and `delete(orInfo.startTimes, id)`. -/
inductive ClientStep : ClientState → ClientState → Prop
  | issue (s : ClientState) (id : Nat) :
      1 ≤ s.avail → id ∉ s.issued →
      ClientStep s ⟨s.avail - 1, insert id s.issued, s.completed, s.table⟩
  | tableWrite (s : ClientState) (id : Nat) :
      id ∈ s.issued →
      ClientStep s ⟨s.avail, s.issued, s.completed, insert id s.table⟩
  | complete (s : ClientState) (id : Nat) :
      id ∈ s.issued → id ∉ s.completed →
      ClientStep s ⟨s.avail + 1, s.issued, insert id s.completed,
        s.table.erase id⟩

/-- States of the client pipeline reachable from a fresh client with
semaphore capacity `B`. -/
def ClientReachable (B : Nat) (s : ClientState) : Prop :=
  Relation.ReflTransGen ClientStep (initClient B) s

/-- Inductive invariant of the client pipeline: completions and table
entries concern issued ids, and the free capacity plus the number of
issued-but-uncompleted requests is exactly `B`. -/
def ClientInv (B : Nat) (s : ClientState) : Prop :=
  s.completed ⊆ s.issued ∧ s.table ⊆ s.issued ∧
  s.avail + (s.issued \ s.completed).card = B

/-- Every pipeline step preserves the client invariant. -/
theorem clientInv_step (B : Nat) (s t : ClientState)
    (hinv : ClientInv B s) (hstep : ClientStep s t) : ClientInv B t := by
  obtain ⟨hcs, hts, hcard⟩ := hinv
  cases hstep with
  | issue id havail hfresh =>
    have hidnc : id ∉ s.completed := fun h => hfresh (hcs h)
    have hsd : insert id s.issued \ s.completed =
        insert id (s.issued \ s.completed) := by
      ext x
      simp only [Finset.mem_sdiff, Finset.mem_insert]
      constructor
      · rintro ⟨hx | hx, hx2⟩
        · exact Or.inl hx
        · exact Or.inr ⟨hx, hx2⟩
      · rintro (rfl | ⟨hx1, hx2⟩)
        · exact ⟨Or.inl rfl, hidnc⟩
        · exact ⟨Or.inr hx1, hx2⟩
    have hidns : id ∉ s.issued \ s.completed := fun h =>
      hfresh (Finset.mem_sdiff.mp h).1
    refine ⟨hcs.trans (Finset.subset_insert id s.issued),
      hts.trans (Finset.subset_insert id s.issued), ?_⟩
    rw [hsd, Finset.card_insert_of_not_mem hidns]
    dsimp only
    omega
  | tableWrite id hmem =>
    exact ⟨hcs, Finset.insert_subset hmem hts, hcard⟩
  | complete id hmem hnc =>
    have hsd : s.issued \ insert id s.completed =
        (s.issued \ s.completed).erase id := by
      ext x
      simp only [Finset.mem_sdiff, Finset.mem_insert, Finset.mem_erase]
      tauto
    have hidin : id ∈ s.issued \ s.completed := Finset.mem_sdiff.mpr ⟨hmem, hnc⟩
    have hpos : 1 ≤ (s.issued \ s.completed).card :=
      Finset.card_pos.mpr ⟨id, hidin⟩
    refine ⟨Finset.insert_subset hmem hcs,
      (Finset.erase_subset id s.table).trans hts, ?_⟩
    rw [hsd, Finset.card_erase_of_mem hidin]
    dsimp only
    omega

/-- The two atomic halves of `Execute`'s RMW branch, whose mutex
protection is commented out in the source: the map read
`val, present := st.Store[c.K]` (defaulting to 0 when absent) and the map
write `st.Store[c.K] = val + 1`. -/
def rmwRead (st : Store) (k : Key) : Value := (st k).getD 0

/-- The RMW branch's store-back of the incremented value. -/
def rmwWrite (st : Store) (k : Key) (v : Value) : Store := storeSet st k (v + 1)

/-- The two halves compose to exactly `Execute`'s RMW case. -/
theorem execute_rmw_decomposition (c : Command) (st : Store)
    (hop : c.Op = .RMW) :
    c.Execute st = (rmwRead st c.K + 1, rmwWrite st c.K (rmwRead st c.K)) := by
  obtain ⟨hv, hst⟩ := execute_rmw c st hop
  have : c.Execute st = ((c.Execute st).1, (c.Execute st).2) := rfl
  rw [this, hv, hst]
  rfl

/-- Progress of one RMW dispatch through the unlocked `Execute`. -/
inductive RmwPhase where
  | notStarted
  | readDone (v : Value)
  | finished
deriving DecidableEq

/-- Shared store plus the progress of two concurrent RMW dispatches
through the same `State` instance. -/
structure RmwPair where
  store : Store
  p1 : RmwPhase
  p2 : RmwPhase

/-- Interleaving semantics of two RMW commands on key `k` dispatched
concurrently through one `State`'s `Execute`: because the method takes no
lock (`st.mutex.Lock()` is commented out), each dispatch's map read and
map write are separate atomic events that may interleave with the other
dispatch's. -/
inductive RmwStep (k : Key) : RmwPair → RmwPair → Prop
  | read1 (s : RmwPair) : s.p1 = .notStarted →
      RmwStep k s ⟨s.store, .readDone (rmwRead s.store k), s.p2⟩
  | write1 (s : RmwPair) (v : Value) : s.p1 = .readDone v →
      RmwStep k s ⟨rmwWrite s.store k v, .finished, s.p2⟩
  | read2 (s : RmwPair) : s.p2 = .notStarted →
      RmwStep k s ⟨s.store, s.p1, .readDone (rmwRead s.store k)⟩
  | write2 (s : RmwPair) (v : Value) : s.p2 = .readDone v →
      RmwStep k s ⟨rmwWrite s.store k v, s.p1, .finished⟩

/-! ## Claims C1 and C10: the conflict relation -/

/-- C1: `Conflict a b` holds exactly when both commands target the same key
and at least one of the two operations is PUT or RMW; in particular a
GET/GET pair on one key does not conflict, PUT/GET and RMW/GET pairs on one
key do, and PUT/PUT pairs on distinct keys do not. -/
theorem conflict_spec :
    (∀ a b : Command, Conflict a b = true ↔
      a.K = b.K ∧ (a.Op = .PUT ∨ a.Op = .RMW ∨ b.Op = .PUT ∨ b.Op = .RMW)) ∧
    (∀ k v v', Conflict ⟨.GET, k, v⟩ ⟨.GET, k, v'⟩ = false) ∧
    (∀ k v v', Conflict ⟨.PUT, k, v⟩ ⟨.GET, k, v'⟩ = true) ∧
    (∀ k1 k2 v v', k1 ≠ k2 → Conflict ⟨.PUT, k1, v⟩ ⟨.PUT, k2, v'⟩ = false) ∧
    (∀ k v v', Conflict ⟨.RMW, k, v⟩ ⟨.GET, k, v'⟩ = true) := by
  refine ⟨?_, ?_, ?_, ?_, ?_⟩
  · intro a b
    unfold Conflict
    by_cases hk : a.K = b.K <;>
      by_cases hop : a.Op = .PUT ∨ a.Op = .RMW ∨ b.Op = .PUT ∨ b.Op = .RMW <;>
        simp [hk, hop]
  · intro k v v'; simp [Conflict]
  · intro k v v'; simp [Conflict]
  · intro k1 k2 v v' hne; simp [Conflict, hne]
  · intro k v v'; simp [Conflict]

/-- Witness for C1 at concrete commands, discharging the `k1 ≠ k2`
hypothesis at keys 1 and 2. -/
theorem conflict_spec_witness :
    Conflict ⟨.GET, 5, 0⟩ ⟨.GET, 5, 0⟩ = false ∧
    Conflict ⟨.PUT, 5, 0⟩ ⟨.GET, 5, 0⟩ = true ∧
    Conflict ⟨.PUT, 1, 0⟩ ⟨.PUT, 2, 0⟩ = false ∧
    Conflict ⟨.RMW, 5, 0⟩ ⟨.GET, 5, 0⟩ = true :=
  ⟨conflict_spec.2.1 5 0 0,
   conflict_spec.2.2.1 5 0 0,
   conflict_spec.2.2.2.1 1 2 0 0 (by decide),
   conflict_spec.2.2.2.2 5 0 0⟩

/-- C2: `Execute` implements the spec's execution semantics: PUT
unconditionally overwrites its key with `c.V` and returns `c.V`; GET
returns the stored value (NIL when absent) and leaves the store unchanged;
RMW increments the stored value (defaulting to 0 when absent), stores the
incremented value back and returns it; and n successive RMW executions on
an initially unset key return 1, 2, …, n in order, regardless of
interleaving with commands on other keys. -/
theorem execute_spec :
    (∀ (c : Command) (st : Store) (k : Key), c.Op = .PUT →
      (c.Execute st).1 = c.V ∧
      (c.Execute st).2 k = if k = c.K then some c.V else st k) ∧
    (∀ (c : Command) (st : Store), c.Op = .GET →
      (c.Execute st).1 = (st c.K).getD NIL ∧ (c.Execute st).2 = st) ∧
    (∀ (c : Command) (st : Store) (k : Key), c.Op = .RMW →
      (c.Execute st).1 = (st c.K).getD 0 + 1 ∧
      (c.Execute st).2 k = if k = c.K then some ((st c.K).getD 0 + 1) else st k) ∧
    (∀ (K : Key) (cs : List Command) (st : Store),
      st K = none → (∀ c ∈ cs, c.K = K → c.Op = .RMW) →
      outputsOn K cs st =
        (List.range (countOn K cs)).map (fun i : Nat => (i : Value) + 1)) := by
  refine ⟨?_, ?_, ?_, ?_⟩
  · intro c st k hop
    unfold Command.Execute
    rw [hop]
    exact ⟨rfl, rfl⟩
  · intro c st hop
    unfold Command.Execute
    rw [hop]
    cases h : st c.K <;> simp [h, NIL]
  · intro c st k hop
    obtain ⟨hv, hst⟩ := execute_rmw c st hop
    exact ⟨hv, by rw [hst]; rfl⟩
  · intro K cs st hnone hall
    rw [outputsOn_rmw K cs st hall, hnone]
    apply List.map_congr_left
    intro i _
    simp only [Option.getD_none]
    ring

/-- Witness for C2: concrete PUT, GET and RMW executions, and the RMW run
RMW(5); PUT(3); RMW(5) from the empty store returning 1, 2 on key 5. -/
theorem execute_spec_witness :
    (Command.Execute ⟨.PUT, 1, 7⟩ emptyStore).1 = 7 ∧
    (Command.Execute ⟨.PUT, 1, 7⟩ emptyStore).2 1 = some 7 ∧
    (Command.Execute ⟨.GET, 2, 0⟩ emptyStore).1 = NIL ∧
    (Command.Execute ⟨.RMW, 5, 0⟩ emptyStore).1 = 0 + 1 ∧
    outputsOn 5 [⟨.RMW, 5, 0⟩, ⟨.PUT, 3, 9⟩, ⟨.RMW, 5, 0⟩] emptyStore =
      (List.range (countOn 5 [⟨.RMW, 5, 0⟩, ⟨.PUT, 3, 9⟩, ⟨.RMW, 5, 0⟩])).map
        (fun i : Nat => (i : Value) + 1) := by
  have hall : ∀ c ∈ ([⟨.RMW, 5, 0⟩, ⟨.PUT, 3, 9⟩, ⟨.RMW, 5, 0⟩] : List Command),
      c.K = 5 → c.Op = .RMW := by
    intro c hc hk
    simp only [List.mem_cons, List.not_mem_nil, or_false] at hc
    rcases hc with rfl | rfl | rfl
    · rfl
    · exact absurd hk (by decide)
    · rfl
  refine ⟨(execute_spec.1 ⟨.PUT, 1, 7⟩ emptyStore 1 rfl).1, ?_, ?_, ?_, ?_⟩
  · have h := (execute_spec.1 ⟨.PUT, 1, 7⟩ emptyStore 1 rfl).2
    simpa using h
  · have h := (execute_spec.2.1 ⟨.GET, 2, 0⟩ emptyStore rfl).1
    simpa [emptyStore] using h
  · have h := (execute_spec.2.2.1 ⟨.RMW, 5, 0⟩ emptyStore 5 rfl).1
    simpa [emptyStore] using h
  · exact execute_spec.2.2.2 5 _ emptyStore rfl hall

/-- C10: the conflict relation is symmetric. -/
theorem conflict_symm (a b : Command) : Conflict a b = Conflict b a := by
  unfold Conflict
  by_cases hk : a.K = b.K
  · rw [if_pos hk, if_pos hk.symm]
    by_cases hop : a.Op = .PUT ∨ a.Op = .RMW ∨ b.Op = .PUT ∨ b.Op = .RMW
    · rw [if_pos hop, if_pos (by tauto)]
    · rw [if_neg hop, if_neg (by tauto)]
  · rw [if_neg hk, if_neg (fun h => hk h.symm)]

/-- C3: in every reachable state of the issuer/receiver pipeline of a
client whose admission semaphore has capacity B ≥ 1, the number of
outstanding-table entries lacking a completion never exceeds B. -/
theorem admission_bound (B : Nat) (hB : 1 ≤ B) (s : ClientState)
    (hreach : ClientReachable B s) :
    (s.table \ s.completed).card ≤ B := by
  have hinv : ClientInv B s := by
    unfold ClientReachable at hreach
    induction hreach with
    | refl =>
      exact ⟨by simp [initClient], by simp [initClient], by simp [initClient]⟩
    | tail hsteps hstep ih => exact clientInv_step B _ _ ih hstep
  obtain ⟨hcs, hts, hcard⟩ := hinv
  have hsub : s.table \ s.completed ⊆ s.issued \ s.completed :=
    Finset.sdiff_subset_sdiff hts (Finset.Subset.refl s.completed)
  have hle : (s.table \ s.completed).card ≤ (s.issued \ s.completed).card :=
    Finset.card_le_card hsub
  omega

/-- Witness for C3: the fresh client with capacity 1, reachable by the
empty execution, has no pending entries. -/
theorem admission_bound_witness :
    ((initClient 1).table \ (initClient 1).completed).card ≤ 1 :=
  admission_bound 1 (by decide) (initClient 1) Relation.ReflTransGen.refl

/-- C4: processing a reply erases exactly the table entry with the reply's
echoed id — every other id's membership is untouched — and when the
replies are an arbitrary permutation of the N issued ids, no id is
processed twice and the table is empty after all N replies. -/
theorem correlation_integrity :
    (∀ (table : Finset Nat) (id j : Nat), j ≠ id →
      (j ∈ processReply table id ↔ j ∈ table)) ∧
    (∀ (table : Finset Nat) (id : Nat), id ∉ processReply table id) ∧
    (∀ (N : Nat) (replies : List Nat), replies.Perm (List.range N) →
      replies.Nodup ∧ processReplies replies (issuedTable N) = ∅) := by
  refine ⟨?_, ?_, ?_⟩
  · intro table id j hne
    simp [processReply, hne]
  · intro table id
    simp [processReply]
  · intro N replies hperm
    refine ⟨hperm.nodup_iff.mpr (List.nodup_range N), ?_⟩
    rw [processReplies_eq_sdiff,
      List.toFinset_eq_of_perm replies (List.range N) hperm]
    ext x
    simp [issuedTable]

/-- Witness for C4: with N = 3 and replies arriving in the order
2, 0, 1, the table empties; and erasing id 1 from {0, 1, 2} keeps 0 and
drops 1. -/
theorem correlation_integrity_witness :
    (0 ∈ processReply {0, 1, 2} 1 ↔ 0 ∈ ({0, 1, 2} : Finset Nat)) ∧
    1 ∉ processReply {0, 1, 2} 1 ∧
    processReplies [2, 0, 1] (issuedTable 3) = ∅ :=
  ⟨correlation_integrity.1 {0, 1, 2} 1 0 (by decide),
   correlation_integrity.2.1 {0, 1, 2} 1,
   (correlation_integrity.2.2 3 [2, 0, 1] (by decide)).2⟩

/-- C6 (code evaluation): because `Execute` takes no lock, two RMW
commands on key 42 dispatched concurrently through the same `State` can
interleave read/read/write/write from the empty store, finishing with
stored value 1 — one increment is lost, contradicting the claimed
atomicity (both increments would give 2). -/
theorem rmw_lost_update :
    ∃ final : RmwPair,
      Relation.ReflTransGen (RmwStep 42)
        ⟨emptyStore, .notStarted, .notStarted⟩ final ∧
      final.p1 = .finished ∧ final.p2 = .finished ∧
      final.store 42 = some 1 ∧ final.store 42 ≠ some 2 := by
  refine ⟨⟨rmwWrite (rmwWrite emptyStore 42 0) 42 0, .finished, .finished⟩,
    ?_, rfl, rfl, ?_, ?_⟩
  · have h1 : RmwStep 42 ⟨emptyStore, .notStarted, .notStarted⟩
        ⟨emptyStore, .readDone 0, .notStarted⟩ :=
      RmwStep.read1 _ rfl
    have h2 : RmwStep 42 ⟨emptyStore, .readDone 0, .notStarted⟩
        ⟨emptyStore, .readDone 0, .readDone 0⟩ :=
      RmwStep.read2 _ rfl
    have h3 : RmwStep 42 ⟨emptyStore, .readDone 0, .readDone 0⟩
        ⟨rmwWrite emptyStore 42 0, .finished, .readDone 0⟩ :=
      RmwStep.write1 _ 0 rfl
    have h4 : RmwStep 42 ⟨rmwWrite emptyStore 42 0, .finished, .readDone 0⟩
        ⟨rmwWrite (rmwWrite emptyStore 42 0) 42 0, .finished, .finished⟩ :=
      RmwStep.write2 _ 0 rfl
    exact Relation.ReflTransGen.tail
      (Relation.ReflTransGen.tail
        (Relation.ReflTransGen.tail
          (Relation.ReflTransGen.tail Relation.ReflTransGen.refl h1) h2) h3) h4
  · simp [rmwWrite, storeSet]
  · simp [rmwWrite, storeSet]

/-- C5 (code evaluation): in the raw-wire issuer's send section the flush
of the serialized frame occurs strictly earlier in program order than the
write of the correlation-table entry, so the table write happens after the
flush — the opposite of the claimed order. -/
theorem flush_precedes_table_write :
    writerSendSection.indexOf .flushFrame <
      writerSendSection.indexOf .writeStartTime ∧
    WriterAction.flushFrame ∈ writerSendSection ∧
    WriterAction.writeStartTime ∈ writerSendSection := by decide

/-- C7: in multi-file mode, a tick's trace lines and its summary line are
emitted iff the tick's elapsed seconds are strictly greater than rampUp
and strictly less than timeout − rampDown; records outside the window are
still consumed; and with rampUp=10, rampDown=10, timeout=60, elapsed
times 5 and 55 are excluded while 30 is included. -/
theorem ramp_window_spec :
    (∀ (ru rd tout e : Int) (drained : List Response),
      ((printerTick ru rd tout e drained).2.1 = true ↔
        ru < e ∧ e < tout - rd) ∧
      (printerTick ru rd tout e drained).1 =
        (if ru < e ∧ e < tout - rd then drained else []) ∧
      (printerTick ru rd tout e drained).2.2 = drained.length) ∧
    inMeasureWindow 10 10 60 5 = false ∧
    inMeasureWindow 10 10 60 30 = true ∧
    inMeasureWindow 10 10 60 55 = false := by
  refine ⟨?_, by decide, by decide, by decide⟩
  intro ru rd tout e drained
  by_cases h : ru < e ∧ e < tout - rd
  · have hw : inMeasureWindow ru rd tout e = true := by
      simp only [inMeasureWindow, Bool.and_eq_true, decide_eq_true_eq]
      exact h
    simp [printerTick, hw, h]
  · have hw : inMeasureWindow ru rd tout e = false := by
      simp only [inMeasureWindow, Bool.and_eq_false_iff, decide_eq_false_iff_not]
      tauto
    simp [printerTick, hw, h]

/-- C8 counterexample: a Poisson mean of 0 is zero-or-negative, yet the
issuer takes the Poisson `TryAcquire` branch, not the blocking closed-loop
acquire — only the literal value -1 selects the closed-loop branch. -/
theorem pacing_zero_mean_not_closed_loop :
    ¬(∀ m : Int, m ≤ 0 → pacingMode m = .closedLoop) := by
  intro h
  exact absurd (h 0 (by decide)) (by decide)

/-- C8 amended: Poisson pacing is disabled (the issuer performs the
blocking closed-loop semaphore acquire) exactly when the configured mean
equals -1; every other mean, including 0 and other negatives, selects the
Poisson pacing loop. -/
theorem pacing_mode_spec (m : Int) :
    pacingMode m = .closedLoop ↔ m = -1 := by
  by_cases h : m = -1 <;> simp [pacingMode, h]

/-- C9 counterexample: with range start -1 the cold key of sequence id 0
equals the fixed hot key 42. -/
theorem cold_key_hits_hot_key : coldKey (-1) 0 = hotKey := by decide

/-- C9 amended: cold keys of distinct int32 sequence ids never collide
with each other for any range start; and the cold key differs from the
hot key whenever the range start is nonnegative and the int32 sum
startRange + 43 + id does not wrap. -/
theorem cold_keys_spec :
    (∀ sr i j : Int, -2 ^ 31 ≤ i → i < 2 ^ 31 → -2 ^ 31 ≤ j → j < 2 ^ 31 →
      i ≠ j → coldKey sr i ≠ coldKey sr j) ∧
    (∀ sr id : Int, 0 ≤ sr → 0 ≤ id → sr + 43 + id < 2 ^ 31 →
      coldKey sr id ≠ hotKey) := by
  constructor
  · intro sr i j hi1 hi2 hj1 hj2 hne heq
    have heqI : @Eq Int (coldKey sr i) (coldKey sr j) := heq
    simp only [coldKey, int32wrap] at heqI
    omega
  · intro sr id h1 h2 h3 heq
    have heqI : @Eq Int (coldKey sr id) hotKey := heq
    simp only [coldKey, int32wrap, hotKey] at heqI
    omega

/-- Witness for C9's amended claim: with range start 0, the cold keys of
ids 0 and 1 differ, and the cold key of id 5 is not the hot key. -/
theorem cold_keys_spec_witness :
    coldKey 0 0 ≠ coldKey 0 1 ∧ coldKey 0 5 ≠ hotKey :=
  ⟨cold_keys_spec.1 0 0 1 (by decide) (by decide) (by decide) (by decide)
      (by decide),
   cold_keys_spec.2 0 5 (by decide) (by decide) (by decide)⟩

end GusEpaxos
